import Mathlib

/-!
A verification development for the text/URL sanitization pipeline of
`streamlit_app.py` (functions `_normalize_unicode_text`, `_clean_url`,
`_sanitize_md_links`, `_sanitize_bare_urls`, `_final_sanitize`).

Strings are modelled as `List Char` (Lean `Char` = Unicode scalar value,
matching Python's `str` code points).  Each Python `re` substitution is
embedded as an executable scanning function that mirrors the engine's
leftmost, non-overlapping, greedy matching for the specific pattern used
by the source.  A `List Char` version of each source function carries an
`L` suffix; `String` wrappers keep the source names.
-/

set_option maxRecDepth 20000

/-- Python `\w` (word character), modelled for the ASCII range that the
source's inputs and the spec's examples use: ASCII letters, digits and
underscore. -/
def isWordChar (c : Char) : Bool :=
  decide ((65 ≤ c.toNat ∧ c.toNat ≤ 90) ∨ (97 ≤ c.toNat ∧ c.toNat ≤ 122) ∨
    (48 ≤ c.toNat ∧ c.toNat ≤ 57) ∨ c.toNat = 95)

/-- The zero-width/bidi control class `_ZERO_WIDTH_BIDI` of the source:
U+200B..U+200D, U+2060, U+FEFF, U+200E, U+200F, U+061C, U+202A-U+202E,
U+2066-U+2069. -/
def isZW (c : Char) : Bool :=
  decide ((0x200B ≤ c.toNat ∧ c.toNat ≤ 0x200F) ∨ c.toNat = 0x2060 ∨
    c.toNat = 0xFEFF ∨ c.toNat = 0x061C ∨
    (0x202A ≤ c.toNat ∧ c.toNat ≤ 0x202E) ∨ (0x2066 ≤ c.toNat ∧ c.toNat ≤ 0x2069))

/-- The exotic-space list `_UNICODE_SPACES` of the source: U+00A0, U+1680,
U+180E, U+2000..U+200A, U+202F, U+205F, U+3000. -/
def isExoticSpace (c : Char) : Bool :=
  decide (c.toNat = 0xA0 ∨ c.toNat = 0x1680 ∨ c.toNat = 0x180E ∨
    (0x2000 ≤ c.toNat ∧ c.toNat ≤ 0x200A) ∨ c.toNat = 0x202F ∨
    c.toNat = 0x205F ∨ c.toNat = 0x3000)

/-- Python's `\s` for `str` patterns (Unicode whitespace), modelled over the
code points relevant here: ASCII whitespace, U+001C..U+001F, U+0085, U+00A0,
U+1680, U+2000..U+200A, U+2028, U+2029, U+202F, U+205F, U+3000. -/
def isPyWs (c : Char) : Bool :=
  decide ((9 ≤ c.toNat ∧ c.toNat ≤ 13) ∨ (0x1C ≤ c.toNat ∧ c.toNat ≤ 0x1F) ∨
    c.toNat = 32 ∨ c.toNat = 0x85 ∨ c.toNat = 0xA0 ∨ c.toNat = 0x1680 ∨
    (0x2000 ≤ c.toNat ∧ c.toNat ≤ 0x200A) ∨ c.toNat = 0x2028 ∨ c.toNat = 0x2029 ∨
    c.toNat = 0x202F ∨ c.toNat = 0x205F ∨ c.toNat = 0x3000)

/-- The character class `[ \t]` used by the space-collapsing rule. -/
def isHSpace (c : Char) : Bool :=
  decide (c.toNat = 32 ∨ c.toNat = 9)

/-- The punctuation class `[,.;:!?]` of the space-before-punctuation rule. -/
def isClosePunct (c : Char) : Bool :=
  decide (c.toNat = 44 ∨ c.toNat = 46 ∨ c.toNat = 59 ∨ c.toNat = 58 ∨
    c.toNat = 33 ∨ c.toNat = 63)

/-- The dash class `[–—-]` (U+2013, U+2014, ASCII hyphen) of the
dash-spacing rule on line 168 of the source. -/
def isSpacingDash (c : Char) : Bool :=
  decide (c.toNat = 0x2013 ∨ c.toNat = 0x2014 ∨ c.toNat = 45)

/-- The lookbehind class `[\w\)\]]` of the dash-spacing rule. -/
def beforeDash (c : Char) : Bool :=
  isWordChar c || decide (c.toNat = 41 ∨ c.toNat = 93)

/-- The lookahead class `[\w\(\[]` of the dash-spacing rule. -/
def afterDash (c : Char) : Bool :=
  isWordChar c || decide (c.toNat = 40 ∨ c.toNat = 91)

/-- The keys of `_DASHES_FOR_URL`: en dash U+2013, em dash U+2014, figure
dash U+2012, minus sign U+2212 and ASCII hyphen (the source bytes hold no
non-breaking hyphen, despite the comment). -/
def isUrlDash (c : Char) : Bool :=
  decide (c.toNat = 0x2013 ∨ c.toNat = 0x2014 ∨ c.toNat = 0x2012 ∨
    c.toNat = 0x2212 ∨ c.toNat = 45)

/-- The trailing-punctuation class `[),.;:!?]` of `_clean_url`. -/
def isTrailPunct (c : Char) : Bool :=
  decide (c.toNat = 41 ∨ c.toNat = 44 ∨ c.toNat = 46 ∨ c.toNat = 59 ∨
    c.toNat = 58 ∨ c.toNat = 33 ∨ c.toNat = 63)

/-- The negated class `[^\s)\]\}>]` of the bare-URL regex. -/
def isBareUrlChar (c : Char) : Bool :=
  !(isPyWs c || decide (c.toNat = 41 ∨ c.toNat = 93 ∨ c.toNat = 125 ∨ c.toNat = 62))

/-- The soft hyphen U+00AD removed by the sanitizers. -/
def softHyphen : Char := '\u00AD'

/-- `unicodedata.normalize("NFKC", s)`, modelled character-wise over the
code points this program manipulates: the compatibility space characters
collapse to an ASCII space, the fullwidth and small number signs U+FF03
and U+FE5F — the only code points whose NFKC folding yields `#`, the one
character the text-fragment regex keys on — collapse to `#`, and NFKC is
the identity on every other character occurring in the source's classes
and in the spec's examples (ASCII, the dash variants
U+2012/U+2013/U+2014/U+2212, and the zero-width and bidi controls have no
compatibility decomposition). -/
def nfkcChar (c : Char) : Char :=
  if c.toNat = 0xA0 then ' '
  else if 0x2000 ≤ c.toNat ∧ c.toNat ≤ 0x200A then ' '
  else if c.toNat = 0x202F ∨ c.toNat = 0x205F ∨ c.toNat = 0x3000 then ' '
  else if c.toNat = 0xFF03 ∨ c.toNat = 0xFE5F then '#'
  else c

/-- NFKC over a whole string (character-wise model). -/
def nfkcL (l : List Char) : List Char := l.map nfkcChar

/-- The loop `for sp in _UNICODE_SPACES: s = s.replace(sp, " ")`. -/
def replaceExoticL (l : List Char) : List Char :=
  l.map fun c => if isExoticSpace c then ' ' else c

/-- Lookahead helper: after skipping the zero-width run, is the next
character a word character?  (The `(?=\w)` of the bridging rule.) -/
def wordAfterZW (l : List Char) : Bool :=
  match l.dropWhile isZW with
  | n :: _ => isWordChar n
  | [] => false

/-- `re.sub(rf"(?<=\w){_ZERO_WIDTH_BIDI_CLASS}+(?=\w)", " ", s)` as a scan.
`prevWord` records whether the previous character of the *original* string
is a word character (the lookbehind); `inRep` records that we are inside a
run already replaced by a single space. -/
def bridgeZWGo : Bool → Bool → List Char → List Char
  | _, _, [] => []
  | prevWord, inRep, c :: rest =>
    if isZW c then
      if inRep then bridgeZWGo false true rest
      else if prevWord && wordAfterZW (c :: rest) then ' ' :: bridgeZWGo false true rest
      else c :: bridgeZWGo false false rest
    else c :: bridgeZWGo (isWordChar c) false rest

/-- The zero-width bridging pass (word-flanked runs become one space). -/
def bridgeZWL (l : List Char) : List Char := bridgeZWGo false false l

/-- `re.sub(_ZERO_WIDTH_BIDI_CLASS, "", s)`: delete remaining controls. -/
def removeZWL (l : List Char) : List Char := l.filter fun c => !isZW c

/-- `s.replace("­", "")`: delete soft hyphens. -/
def removeSoftHyphenL (l : List Char) : List Char := l.filter fun c => c != softHyphen

/-- `re.sub(r"(?<=[\w\)\]])([–—-])(?=[\w\(\[])", r" \1 ", s)` as a scan;
`prev` is the previous character of the original string (the lookbehind). -/
def dashGo : Option Char → List Char → List Char
  | _, [] => []
  | prev, c :: rest =>
    if isSpacingDash c
        && (match prev with | some p => beforeDash p | none => false)
        && (match rest with | n :: _ => afterDash n | [] => false) then
      ' ' :: c :: ' ' :: dashGo (some c) rest
    else c :: dashGo (some c) rest

/-- The dash-spacing pass of `_normalize_unicode_text`. -/
def dashSpaceL (l : List Char) : List Char := dashGo none l

/-- `re.sub(r"[ \t]{2,}", " ", s)` as a scan; `inRun` records that we are
inside a run already collapsed to one space. -/
def collapseGo : Bool → List Char → List Char
  | _, [] => []
  | true, c :: rest =>
    if isHSpace c then collapseGo true rest else c :: collapseGo false rest
  | false, c :: rest =>
    if isHSpace c then
      match rest with
      | d :: _ => if isHSpace d then ' ' :: collapseGo true rest else c :: collapseGo false rest
      | [] => [c]
    else c :: collapseGo false rest

/-- The horizontal-whitespace collapsing pass. -/
def collapseL (l : List Char) : List Char := collapseGo false l

/-- Lookahead helper: after skipping spaces, is the next character in
`[,.;:!?]`? -/
def punctAfterSpaces (l : List Char) : Bool :=
  match l.dropWhile (fun c => c == ' ') with
  | p :: _ => isClosePunct p
  | [] => false

/-- `re.sub(r" +([,.;:!?])", r"\1", s)` as a scan; `dropping` records that
we are inside a space run being deleted (it ends at the punctuation mark). -/
def punctGo : Bool → List Char → List Char
  | _, [] => []
  | dropping, c :: rest =>
    if c == ' ' then
      if dropping then punctGo true rest
      else if punctAfterSpaces (c :: rest) then punctGo true rest
      else c :: punctGo false rest
    else c :: punctGo false rest

/-- The space-before-punctuation pass. -/
def punctFixL (l : List Char) : List Char := punctGo false l

/-- `_normalize_unicode_text` on `List Char`: NFKC, exotic spaces to ASCII
space, zero-width bridging, zero-width removal, soft-hyphen removal, dash
spacing, whitespace collapsing, space-before-punctuation removal (the
`if not s: return s` guard is extensionally absorbed: every stage maps the
empty string to itself). -/
def normalizeTextL (l : List Char) : List Char :=
  punctFixL (collapseL (dashSpaceL (removeSoftHyphenL (removeZWL
    (bridgeZWL (replaceExoticL (nfkcL l)))))))

/-- `_normalize_unicode_text` on `String`. -/
def _normalize_unicode_text (s : String) : String := ⟨normalizeTextL s.data⟩

/-- The mandatory part `#\s*:\s*~\s*:\s*text\s*=` (IGNORECASE) of the
text-fragment regex, attempted at the head of the list; on success returns
the tail after the `=`. -/
def parseFrag : List Char → Option (List Char)
  | '#' :: r1 =>
    match r1.dropWhile isPyWs with
    | ':' :: r3 =>
      match r3.dropWhile isPyWs with
      | '~' :: r5 =>
        match r5.dropWhile isPyWs with
        | ':' :: r7 =>
          match r7.dropWhile isPyWs with
          | c1 :: c2 :: c3 :: c4 :: r9 =>
            if (c1 == 't' || c1 == 'T') && (c2 == 'e' || c2 == 'E')
                && (c3 == 'x' || c3 == 'X') && (c4 == 't' || c4 == 'T') then
              match r9.dropWhile isPyWs with
              | '=' :: r11 => some r11
              | _ => none
            else none
          | _ => none
        | _ => none
      | _ => none
    | _ => none
  | _ => none

/-- The `.*$` part of the text-fragment regex (no DOTALL, no MULTILINE):
`$` matches at the end of the string or just before a final newline, and
`.` excludes newlines.  Given the tail after `=`, returns what the engine
leaves behind when the whole match succeeds, `none` when `$` is
unreachable. -/
def fragLeftover (t : List Char) : Option (List Char) :=
  if '\n' ∉ t then some []
  else if t.getLast? = some '\n' ∧ '\n' ∉ t.dropLast then some ['\n']
  else none

/-- `re.sub(r"#\s*:\s*~\s*:\s*text\s*=.*$", "", u, flags=re.IGNORECASE)`:
replace the leftmost match (which always extends to the end, bar a final
newline) with the empty string. -/
def fragGo : List Char → List Char
  | [] => []
  | c :: rest =>
    match parseFrag (c :: rest) with
    | some t =>
      match fragLeftover t with
      | some leftover => leftover
      | none => c :: fragGo rest
    | none => c :: fragGo rest

/-- `re.sub(r"\s+", "", u)`: delete every whitespace character. -/
def removeWsL (l : List Char) : List Char := l.filter fun c => !isPyWs c

/-- `u.translate(_DASHES_FOR_URL)`: map every dash variant to a hyphen. -/
def translateDashL (l : List Char) : List Char :=
  l.map fun c => if isUrlDash c then '-' else c

/-- `re.sub(r"[),.;:!?]+$", "", u)`: strip the maximal trailing run of
characters from `[),.;:!?]` (after whitespace removal the string holds no
newline, so `$` is exactly the end of the string). -/
def stripTrailPunctL (l : List Char) : List Char :=
  (l.reverse.dropWhile isTrailPunct).reverse

/-- `_clean_url` on `List Char`: NFKC, text-fragment removal, whitespace
removal, soft-hyphen removal, dash translation, trailing-punctuation strip
(the `if not url: return url` guard is extensionally absorbed). -/
def cleanUrlL (l : List Char) : List Char :=
  stripTrailPunctL (translateDashL (removeSoftHyphenL (removeWsL (fragGo (nfkcL l)))))

/-- `_clean_url` on `String`. -/
def _clean_url (s : String) : String := ⟨cleanUrlL s.data⟩

/-- Attempt of the markdown-link pattern `\[([^\]]+)\]\(([^)]+)\)` at a
position whose `[` has just been read: `rest` is the text after the `[`.
On success returns the (non-empty) label, the (non-empty) url and the text
after the closing parenthesis.  Both quantified classes are greedy and
followed by a literal, so `takeWhile`/`dropWhile` are exact. -/
def tryMd (rest : List Char) : Option (List Char × List Char × List Char) :=
  match rest.dropWhile (fun c => c != ']') with
  | ']' :: '(' :: r3 =>
    (match r3.dropWhile (fun c => c != ')') with
     | ')' :: r5 =>
       if (rest.takeWhile (fun c => c != ']')).isEmpty
           || (r3.takeWhile (fun c => c != ')')).isEmpty then none
       else some (rest.takeWhile (fun c => c != ']'), r3.takeWhile (fun c => c != ')'), r5)
     | _ => none)
  | _ => none

/-- `re.sub(r"\[([^\]]+)\]\(([^)]+)\)", repl, md)` as a fuelled scan
(`fuel ≥ length` at every call; on failure the scan advances one
character, after a match it resumes after the closing parenthesis,
exactly like the engine). -/
def mdGo : Nat → List Char → List Char
  | 0, l => l
  | _ + 1, [] => []
  | fuel + 1, c :: rest =>
    if c = '[' then
      match tryMd rest with
      | some (label, url, r5) =>
        '[' :: (label ++ ']' :: '(' :: (cleanUrlL url ++ ')' :: mdGo fuel r5))
      | none => '[' :: mdGo fuel rest
    else c :: mdGo fuel rest

/-- `_sanitize_md_links` on `List Char`. -/
def sanitizeMdLinksL (l : List Char) : List Char := mdGo l.length l

/-- `_sanitize_md_links` on `String`. -/
def _sanitize_md_links (s : String) : String := ⟨sanitizeMdLinksL s.data⟩

/-- The characters of `https://`. -/
def schemeHttps : List Char := ['h', 't', 't', 'p', 's', ':', '/', '/']

/-- The characters of `http://`. -/
def schemeHttp : List Char := ['h', 't', 't', 'p', ':', '/', '/']

/-- Attempt of the bare-URL pattern `https?://[^\s)\]\}>]+` at the head of
`l`: on success returns the whole matched text (scheme plus the non-empty
greedy run) and the text after it.  `https?` backtracks only between the
two literal schemes, and the run is a greedy class before end/assert-free
context, so `takeWhile`/`dropWhile` are exact. -/
def tryBare (l : List Char) : Option (List Char × List Char) :=
  match l with
  | 'h' :: 't' :: 't' :: 'p' :: 's' :: ':' :: '/' :: '/' :: r =>
    (match r.takeWhile isBareUrlChar with
     | [] => none
     | run => some (schemeHttps ++ run, r.dropWhile isBareUrlChar))
  | 'h' :: 't' :: 't' :: 'p' :: ':' :: '/' :: '/' :: r =>
    (match r.takeWhile isBareUrlChar with
     | [] => none
     | run => some (schemeHttp ++ run, r.dropWhile isBareUrlChar))
  | _ => none

/-- `re.sub(r"https?://[^\s)\]\}>]+", repl, md)` as a fuelled scan.  When
no match starts at the current position the scan advances one character,
exactly like the engine. -/
def bareGo : Nat → List Char → List Char
  | 0, l => l
  | _ + 1, [] => []
  | fuel + 1, c :: rest =>
    match tryBare (c :: rest) with
    | some (matched, r) => cleanUrlL matched ++ bareGo fuel r
    | none => c :: bareGo fuel rest

/-- `_sanitize_bare_urls` on `List Char`. -/
def sanitizeBareUrlsL (l : List Char) : List Char := bareGo l.length l

/-- `_sanitize_bare_urls` on `String`. -/
def _sanitize_bare_urls (s : String) : String := ⟨sanitizeBareUrlsL s.data⟩

/-- `_final_sanitize` on `List Char`: normalize, then the markdown-link
pass, then the bare-URL pass — the order written in the source. -/
def finalSanitizeL (l : List Char) : List Char :=
  sanitizeBareUrlsL (sanitizeMdLinksL (normalizeTextL l))

/-- `_final_sanitize` on `String`. -/
def _final_sanitize (s : String) : String := ⟨finalSanitizeL s.data⟩

/-- The composition written in the spec's contract formula
`sanitizeLinks(sanitizeBareUrls(normalize(modelOutput)))`, i.e. the
bare-URL pass applied before the markdown-link pass (built from the spec's
words, to be compared with `finalSanitizeL`). -/
def sanitizeSpecFormulaL (l : List Char) : List Char :=
  sanitizeMdLinksL (sanitizeBareUrlsL (normalizeTextL l))

/-! ## Basic list lemmas -/

theorem char_toNat_inj {a b : Char} (h : a.toNat = b.toNat) : a = b :=
  Char.ext (UInt32.ext h)

theorem length_dropWhile_le (p : Char → Bool) (l : List Char) :
    (l.dropWhile p).length ≤ l.length := by
  induction l with
  | nil => simp
  | cons a as ih =>
    rw [List.dropWhile_cons]
    split
    · exact Nat.le_succ_of_le ih
    · simp

theorem takeWhile_append_cons {p : Char → Bool} {xs : List Char} {y : Char} {ys : List Char}
    (hx : ∀ x ∈ xs, p x = true) (hy : p y = false) :
    (xs ++ y :: ys).takeWhile p = xs := by
  induction xs with
  | nil => simp [List.takeWhile_cons, hy]
  | cons a as ih =>
    have ha : p a = true := hx a (List.mem_cons_self a as)
    simp only [List.cons_append, List.takeWhile_cons, ha, if_true]
    exact congrArg (a :: ·) (ih fun x hm => hx x (List.mem_cons_of_mem a hm))

theorem dropWhile_append_cons {p : Char → Bool} {xs : List Char} {y : Char} {ys : List Char}
    (hx : ∀ x ∈ xs, p x = true) (hy : p y = false) :
    (xs ++ y :: ys).dropWhile p = y :: ys := by
  induction xs with
  | nil => simp [List.dropWhile_cons, hy]
  | cons a as ih =>
    have ha : p a = true := hx a (List.mem_cons_self a as)
    simp only [List.cons_append, List.dropWhile_cons, ha, if_true]
    exact ih fun x hm => hx x (List.mem_cons_of_mem a hm)

theorem head?_dropWhile {p : Char → Bool} {l : List Char} {c : Char}
    (h : (l.dropWhile p).head? = some c) : p c = false := by
  induction l with
  | nil => simp at h
  | cons a as ih =>
    rw [List.dropWhile_cons] at h
    split at h
    · exact ih h
    · next hpa =>
      simp only [List.head?_cons, Option.some.injEq] at h
      subst h
      simpa using hpa

/-! ## Fuel irrelevance for the two skipping scanners -/

theorem tryMd_length {rest label url r5 : List Char}
    (h : tryMd rest = some (label, url, r5)) : r5.length ≤ rest.length := by
  unfold tryMd at h
  split at h
  · next r3 hdw =>
    split at h
    · next r5' hdw2 =>
      split at h
      · exact absurd h (by simp)
      · simp only [Option.some.injEq, Prod.mk.injEq] at h
        obtain ⟨-, -, rfl⟩ := h
        have h1 : (rest.dropWhile (fun c => c != ']')).length ≤ rest.length :=
          length_dropWhile_le _ _
        have h2 : (r3.dropWhile (fun c => c != ')')).length ≤ r3.length :=
          length_dropWhile_le _ _
        rw [hdw] at h1
        rw [hdw2] at h2
        simp only [List.length_cons] at h1 h2
        omega
    · exact absurd h (by simp)
  · exact absurd h (by simp)

theorem tryBare_length {l matched r : List Char}
    (h : tryBare l = some (matched, r)) : r.length + 1 ≤ l.length := by
  unfold tryBare at h
  split at h
  · next r0 =>
    split at h
    · exact absurd h (by simp)
    · simp only [Option.some.injEq, Prod.mk.injEq] at h
      obtain ⟨-, rfl⟩ := h
      have := length_dropWhile_le isBareUrlChar r0
      simp only [List.length_cons]
      omega
  · next r0 =>
    split at h
    · exact absurd h (by simp)
    · simp only [Option.some.injEq, Prod.mk.injEq] at h
      obtain ⟨-, rfl⟩ := h
      have := length_dropWhile_le isBareUrlChar r0
      simp only [List.length_cons]
      omega
  · exact absurd h (by simp)

theorem mdGo_fuel : ∀ (f g : Nat) (l : List Char), l.length ≤ f → l.length ≤ g →
    mdGo f l = mdGo g l := by
  intro f
  induction f with
  | zero =>
    intro g l hf _
    have hl : l = [] := List.eq_nil_of_length_eq_zero (Nat.le_zero.mp hf)
    subst hl
    cases g <;> rfl
  | succ f ih =>
    intro g l hf hg
    cases l with
    | nil => cases g <;> rfl
    | cons c rest =>
      obtain ⟨g', rfl⟩ : ∃ g', g = g' + 1 := by
        cases g with
        | zero => simp at hg
        | succ g' => exact ⟨g', rfl⟩
      simp only [List.length_cons, Nat.add_le_add_iff_right] at hf hg
      show mdGo (f + 1) (c :: rest) = mdGo (g' + 1) (c :: rest)
      by_cases hc : c = '['
      · subst hc
        rcases htm : tryMd rest with - | ⟨label, url, r5⟩
        · simp only [mdGo, htm, eq_self_iff_true, if_true]
          exact congrArg ('[' :: ·) (ih g' rest hf hg)
        · have hr5 : r5.length ≤ rest.length := tryMd_length htm
          simp only [mdGo, htm, eq_self_iff_true, if_true]
          have := ih g' r5 (Nat.le_trans hr5 hf) (Nat.le_trans hr5 hg)
          rw [this]
      · simp only [mdGo, if_neg hc]
        exact congrArg (c :: ·) (ih g' rest hf hg)

theorem bareGo_fuel : ∀ (f g : Nat) (l : List Char), l.length ≤ f → l.length ≤ g →
    bareGo f l = bareGo g l := by
  intro f
  induction f with
  | zero =>
    intro g l hf _
    have hl : l = [] := List.eq_nil_of_length_eq_zero (Nat.le_zero.mp hf)
    subst hl
    cases g <;> rfl
  | succ f ih =>
    intro g l hf hg
    cases l with
    | nil => cases g <;> rfl
    | cons c rest =>
      obtain ⟨g', rfl⟩ : ∃ g', g = g' + 1 := by
        cases g with
        | zero => simp at hg
        | succ g' => exact ⟨g', rfl⟩
      have hf' : rest.length ≤ f := by simpa using hf
      have hg' : rest.length ≤ g' := by simpa using hg
      show bareGo (f + 1) (c :: rest) = bareGo (g' + 1) (c :: rest)
      rcases htb : tryBare (c :: rest) with - | ⟨matched, r⟩
      · simp only [bareGo, htb]
        exact congrArg (c :: ·) (ih g' rest hf' hg')
      · have hr : r.length ≤ rest.length := by
          have := tryBare_length htb
          simp only [List.length_cons] at this
          omega
        simp only [bareGo, htb]
        rw [ih g' r (Nat.le_trans hr hf') (Nat.le_trans hr hg')]

/-! ## Claim theorems: concrete counterexamples and evaluations -/

/-- C1: the full pipeline `_final_sanitize` is not idempotent.  On the
input `http://a−b` (with MINUS SIGN U+2212) one application yields
`http://a-b` — the URL canonicalizer maps the minus sign to a hyphen —
while a second application spaces that hyphen out to `http://a - b`,
because the normalizer's dash-spacing class contains the ASCII hyphen
that the first pass introduced, though not the minus sign itself. -/
theorem c1_idempotence_fails_on_minus_dash_url :
    _final_sanitize "http://a−b" = "http://a-b" ∧
    _final_sanitize (_final_sanitize "http://a−b") = "http://a - b" ∧
    _final_sanitize (_final_sanitize "http://a−b") ≠
      _final_sanitize "http://a−b" :=
  ⟨by decide, by decide, by decide⟩

/-- C2 (counterexample): the Text Normalizer does alter a well-formed URL
substring: `_normalize_unicode_text` rewrites the whole-string URL
`http://a-b` to `http://a - b` via the generic dash-spacing rule. -/
theorem c2_normalizer_alters_url_counterexample :
    _normalize_unicode_text "http://a-b" = "http://a - b" ∧
    _normalize_unicode_text "http://a-b" ≠ "http://a-b" :=
  ⟨by decide, by decide⟩

/-- C3 (counterexample): the spec's contract formula
`sanitizeLinks(sanitizeBareUrls(normalize(T)))` — the bare-URL pass before
the markdown-link pass — disagrees with the implemented pipeline on the
input `[lab](http://a#:~:text=]b)`: the pipeline yields `[lab](http://a)`
while the formula's order yields `[lab](http://a]b)`. -/
theorem c3_formula_order_differs_counterexample :
    finalSanitizeL "[lab](http://a#:~:text=]b)".data ≠
      sanitizeSpecFormulaL "[lab](http://a#:~:text=]b)".data := by decide

/-- C3 (amended): the implemented pipeline `_final_sanitize` equals the
prose order of the spec — normalize first, then the markdown-link pass,
then the bare-URL pass — for every input. -/
theorem c3_amended_pipeline_is_prose_order (l : List Char) :
    finalSanitizeL l = sanitizeBareUrlsL (sanitizeMdLinksL (normalizeTextL l)) := rfl

/-- C4 (counterexample): the figure dash U+2012 is not in the dash-spacing
class `[–—-]`, so `a‒b` is left unchanged by the Text Normalizer instead
of being rewritten to `a ‒ b` as the claim's four-dash set requires. -/
theorem c4_figure_dash_not_spaced_counterexample :
    _normalize_unicode_text "a‒b" = "a‒b" ∧
    _normalize_unicode_text "a‒b" ≠ "a ‒ b" :=
  ⟨by decide, by decide⟩

/-! ## C9: the canonicalizer's output never ends in trailing punctuation -/

/-- C9: `_clean_url` strips the trailing run of `[),.;:!?]` as its final
step, so the output of the canonicalizer never ends with a character from
that set; in particular the sentence period glued onto
`https://example.com/page.` is removed. -/
theorem c9_trailing_punctuation :
    (∀ (u : List Char) (c : Char),
        (cleanUrlL u).getLast? = some c → isTrailPunct c = false) ∧
    _clean_url "https://example.com/page." = "https://example.com/page" := by
  refine ⟨?_, by decide⟩
  intro u c h
  unfold cleanUrlL stripTrailPunctL at h
  rw [List.getLast?_reverse] at h
  exact head?_dropWhile h

/-- C9 (witness): instantiation of the general statement at the spec's
example URL, whose cleaned form ends in the letter `e`. -/
theorem c9_trailing_punctuation_witness : isTrailPunct 'e' = false :=
  c9_trailing_punctuation.1 "https://example.com/page.".data 'e' (by decide)

/-! ## C7: the markdown-link pass -/

theorem bne_true_of_ne {c d : Char} (h : c ≠ d) : (c != d) = true :=
  bne_iff_ne.mpr h

theorem tryMd_append {label url rest : List Char}
    (h1 : label ≠ []) (h2 : ']' ∉ label) (h3 : url ≠ []) (h4 : ')' ∉ url) :
    tryMd (label ++ ']' :: '(' :: (url ++ ')' :: rest)) = some (label, url, rest) := by
  have hlab : ∀ x ∈ label, (x != ']') = true :=
    fun x hm => bne_true_of_ne (fun e => h2 (e ▸ hm))
  have hurl : ∀ x ∈ url, (x != ')') = true :=
    fun x hm => bne_true_of_ne (fun e => h4 (e ▸ hm))
  have hd1 : (label ++ ']' :: '(' :: (url ++ ')' :: rest)).dropWhile (fun c => c != ']')
      = ']' :: '(' :: (url ++ ')' :: rest) :=
    dropWhile_append_cons hlab (by simp)
  have ht1 : (label ++ ']' :: '(' :: (url ++ ')' :: rest)).takeWhile (fun c => c != ']')
      = label :=
    takeWhile_append_cons hlab (by simp)
  have hd2 : (url ++ ')' :: rest).dropWhile (fun c => c != ')') = ')' :: rest :=
    dropWhile_append_cons hurl (by simp)
  have ht2 : (url ++ ')' :: rest).takeWhile (fun c => c != ')') = url :=
    takeWhile_append_cons hurl (by simp)
  unfold tryMd
  rw [hd1]
  simp only [hd2, ht1, ht2]
  rw [if_neg]
  simp only [Bool.or_eq_true, List.isEmpty_iff, not_or]
  exact ⟨h1, h3⟩

/-- C7: the markdown-link pass rewrites every `[label](url)` occurrence
(label without `]`, url without `)`) to `[label](cleanUrl(url))`, leaving
the label untouched; in particular
`[Report](https://example.com/page.)` becomes
`[Report](https://example.com/page)` with the label unchanged. -/
theorem c7_md_link_pass :
    (∀ (label url rest : List Char), label ≠ [] → ']' ∉ label → url ≠ [] → ')' ∉ url →
        sanitizeMdLinksL ('[' :: (label ++ ']' :: '(' :: (url ++ ')' :: rest))) =
          '[' :: (label ++ ']' :: '(' :: (cleanUrlL url ++ ')' :: sanitizeMdLinksL rest))) ∧
    _sanitize_md_links "[Report](https://example.com/page.)" =
      "[Report](https://example.com/page)" := by
  refine ⟨?_, by decide⟩
  intro label url rest h1 h2 h3 h4
  unfold sanitizeMdLinksL
  rw [List.length_cons]
  simp only [mdGo, eq_self_iff_true, if_true, tryMd_append h1 h2 h3 h4]
  have hle : rest.length ≤ (label ++ ']' :: '(' :: (url ++ ')' :: rest)).length := by
    simp [List.length_append]
    omega
  rw [mdGo_fuel _ _ rest hle (Nat.le_refl _)]

/-- C7 (witness): instantiation of the general markdown-link statement at
label `R`, url `u`, empty remainder. -/
theorem c7_md_link_pass_witness :
    sanitizeMdLinksL ('[' :: (['R'] ++ ']' :: '(' :: (['u'] ++ ')' :: []))) =
      '[' :: (['R'] ++ ']' :: '(' :: (cleanUrlL ['u'] ++ ')' :: sanitizeMdLinksL [])) :=
  c7_md_link_pass.1 ['R'] ['u'] [] (by decide) (by decide) (by decide) (by decide)

/-! ## C6: the bare-URL pass -/

theorem tryBare_https_append {run rest : List Char}
    (h1 : run ≠ []) (h2 : ∀ c ∈ run, isBareUrlChar c = true) :
    tryBare (schemeHttps ++ (run ++ ')' :: rest)) = some (schemeHttps ++ run, ')' :: rest) := by
  have ht : (run ++ ')' :: rest).takeWhile isBareUrlChar = run :=
    takeWhile_append_cons h2 (by decide)
  have hd : (run ++ ')' :: rest).dropWhile isBareUrlChar = ')' :: rest :=
    dropWhile_append_cons h2 (by decide)
  have step1 : tryBare (schemeHttps ++ (run ++ ')' :: rest)) =
      (match (run ++ ')' :: rest).takeWhile isBareUrlChar with
       | [] => none
       | rn => some (schemeHttps ++ rn, (run ++ ')' :: rest).dropWhile isBareUrlChar)) := rfl
  rw [step1, ht, hd]
  obtain ⟨r0, rs, rfl⟩ : ∃ r0 rs, run = r0 :: rs := by
    cases run with
    | nil => exact absurd rfl h1
    | cons r0 rs => exact ⟨r0, rs, rfl⟩
  rfl

/-- C6: the bare-URL pass matches the maximal run after `https://` made of
characters that are neither whitespace nor one of `)]}>`, replaces exactly
that run with its canonical form, and leaves the following `)` in place;
in particular `See https://example.com/foo), it helps.` keeps its `)` and
is returned unchanged (the URL is already canonical). -/
theorem c6_bare_url_pass :
    (∀ (run rest : List Char), run ≠ [] → (∀ c ∈ run, isBareUrlChar c = true) →
        sanitizeBareUrlsL (schemeHttps ++ (run ++ ')' :: rest)) =
          cleanUrlL (schemeHttps ++ run) ++ ')' :: sanitizeBareUrlsL rest) ∧
    _sanitize_bare_urls "See https://example.com/foo), it helps." =
      "See https://example.com/foo), it helps." := by
  refine ⟨?_, by decide⟩
  intro run rest h1 h2
  unfold sanitizeBareUrlsL
  obtain ⟨m, hm, hm'⟩ : ∃ m, (schemeHttps ++ (run ++ ')' :: rest)).length = m + 1 ∧
      rest.length + 1 ≤ m := by
    refine ⟨(schemeHttps ++ (run ++ ')' :: rest)).length - 1, ?_, ?_⟩ <;>
      · simp only [schemeHttps, List.length_append, List.length_cons]
        omega
  rw [hm]
  show bareGo (m + 1) ('h' :: 't' :: 't' :: 'p' :: 's' :: ':' :: '/' :: '/'
      :: (run ++ ')' :: rest)) = _
  simp only [bareGo]
  rw [show tryBare ('h' :: 't' :: 't' :: 'p' :: 's' :: ':' :: '/' :: '/'
      :: (run ++ ')' :: rest)) = some (schemeHttps ++ run, ')' :: rest) from
    tryBare_https_append h1 h2]
  show cleanUrlL (schemeHttps ++ run) ++ bareGo m (')' :: rest) = _
  rw [bareGo_fuel m (rest.length + 1) (')' :: rest) (by simpa using hm') (by simp)]
  show _ ++ (')' :: bareGo rest.length rest) = _
  rfl

/-- C6 (witness): instantiation of the general bare-URL statement at the
one-character run `x` with empty remainder. -/
theorem c6_bare_url_pass_witness :
    sanitizeBareUrlsL (schemeHttps ++ (['x'] ++ ')' :: [])) =
      cleanUrlL (schemeHttps ++ ['x']) ++ ')' :: sanitizeBareUrlsL [] :=
  c6_bare_url_pass.1 ['x'] [] (by decide) (by decide)

/-! ## C8: text-fragment removal -/

theorem parseFrag_at_frag (w : List Char) :
    parseFrag ('#' :: ':' :: '~' :: ':' :: 't' :: 'e' :: 'x' :: 't' :: '=' :: w) = some w := rfl

theorem parseFrag_ne_hash {c : Char} (l : List Char) (h : c ≠ '#') :
    parseFrag (c :: l) = none := by
  rw [parseFrag.eq_def]
  split
  · next heq =>
    exact absurd (List.cons.inj heq).1 h
  · rfl

theorem fragGo_no_hash {l : List Char} (h : '#' ∉ l) : fragGo l = l := by
  induction l with
  | nil => rfl
  | cons c rest ih =>
    have hc : c ≠ '#' := fun e => h (e ▸ List.mem_cons_self c rest)
    rw [fragGo, parseFrag_ne_hash rest hc]
    exact congrArg (c :: ·) (ih fun hm => h (List.mem_cons_of_mem c hm))

theorem fragGo_removes {p : List Char} (hp : '#' ∉ p) {w : List Char} (hw : '\n' ∉ w) :
    fragGo (p ++ '#' :: ':' :: '~' :: ':' :: 't' :: 'e' :: 'x' :: 't' :: '=' :: w) = p := by
  induction p with
  | nil =>
    rw [List.nil_append, fragGo, parseFrag_at_frag]
    show (match fragLeftover w with
          | some leftover => leftover
          | none => '#' :: fragGo (':' :: '~' :: ':' :: 't' :: 'e' :: 'x' :: 't' :: '=' :: w))
        = []
    rw [fragLeftover, if_pos hw]
  | cons c rest ih =>
    have hc : c ≠ '#' := fun e => hp (e ▸ List.mem_cons_self c rest)
    rw [List.cons_append, fragGo, parseFrag_ne_hash _ hc]
    exact congrArg (c :: ·) (ih fun hm => hp (List.mem_cons_of_mem c hm))

theorem nfkcChar_preserve_low {c d : Char} (hd : d.toNat < 0xA0) (hd2 : d.toNat ≠ 32)
    (hd3 : d.toNat ≠ 35) : nfkcChar c = d ↔ c = d := by
  have hsp : (' ').toNat = 32 := rfl
  have hhash : ('#').toNat = 35 := rfl
  unfold nfkcChar
  split_ifs with h1 h2 h3 h4
  · constructor
    · intro he
      exact absurd (congrArg Char.toNat he) (by rw [hsp]; omega)
    · intro he
      exact absurd (congrArg Char.toNat he) (by omega)
  · constructor
    · intro he
      exact absurd (congrArg Char.toNat he) (by rw [hsp]; omega)
    · intro he
      exact absurd (congrArg Char.toNat he) (by omega)
  · constructor
    · intro he
      exact absurd (congrArg Char.toNat he) (by rw [hsp]; omega)
    · intro he
      have := congrArg Char.toNat he
      exact absurd this (by omega)
  · constructor
    · intro he
      exact absurd (congrArg Char.toNat he) (by rw [hhash]; omega)
    · intro he
      exact absurd (congrArg Char.toNat he) (by omega)
  · exact Iff.rfl

theorem mem_nfkcL_iff {d : Char} (hd : d.toNat < 0xA0) (hd2 : d.toNat ≠ 32)
    (hd3 : d.toNat ≠ 35) (l : List Char) : d ∈ nfkcL l ↔ d ∈ l := by
  unfold nfkcL
  rw [List.mem_map]
  constructor
  · rintro ⟨c, hc, he⟩
    rwa [(nfkcChar_preserve_low hd hd2 hd3).mp he] at hc
  · intro hm
    exact ⟨d, hm, (nfkcChar_preserve_low hd hd2 hd3).mpr rfl⟩

/-- C8: `_clean_url` removes a trailing text-fragment suffix: whenever the
pattern `#:~:text=` occurs after a prefix whose NFKC normalization holds
no `#` (NFKC itself can create a `#` from U+FF03 or U+FE5F, so the
condition is stated on the normalized prefix) and its tail holds no
newline (so the regex's `.*$` reaches the end of the string), the whole
suffix from `#` on is deleted and the remaining canonicalization acts on
the prefix alone; in particular
`https://example.com/path#:~:text=foo%20bar` becomes
`https://example.com/path`. -/
theorem c8_text_fragment_removal :
    (∀ (p w : List Char), '#' ∉ nfkcL p → '\n' ∉ w →
        cleanUrlL (p ++ '#' :: ':' :: '~' :: ':' :: 't' :: 'e' :: 'x' :: 't' :: '=' :: w) =
          cleanUrlL p) ∧
    _clean_url "https://example.com/path#:~:text=foo%20bar" = "https://example.com/path" := by
  refine ⟨?_, by decide⟩
  intro p w hp hw
  have hFrag : nfkcL (p ++ '#' :: ':' :: '~' :: ':' :: 't' :: 'e' :: 'x' :: 't' :: '=' :: w)
      = nfkcL p ++ '#' :: ':' :: '~' :: ':' :: 't' :: 'e' :: 'x' :: 't' :: '=' :: nfkcL w := by
    simp only [nfkcL, List.map_append]
    rfl
  have hw' : '\n' ∉ nfkcL w :=
    fun hm => hw ((mem_nfkcL_iff (by decide) (by decide) (by decide) w).mp hm)
  unfold cleanUrlL
  rw [hFrag, fragGo_removes hp hw', fragGo_no_hash hp]

/-- C8 (witness): instantiation of the general fragment-removal statement
at prefix `u` and tail `q`. -/
theorem c8_text_fragment_removal_witness :
    cleanUrlL (['u'] ++ '#' :: ':' :: '~' :: ':' :: 't' :: 'e' :: 'x' :: 't' :: '=' :: ['q']) =
      cleanUrlL ['u'] :=
  c8_text_fragment_removal.1 ['u'] ['q'] (by decide) (by decide)

/-! ## C5: zero-width/bidi bridging and removal -/

theorem word_not_zw {c : Char} (h : isWordChar c = true) : isZW c = false := by
  simp only [isWordChar, decide_eq_true_eq] at h
  simp only [isZW, decide_eq_false_iff_not]
  omega

theorem bridge_consume {rs : List Char} (h : ∀ c ∈ rs, isZW c = true) {n : Char}
    (hn : isZW n = false) : bridgeZWGo false true (rs ++ [n]) = [n] := by
  induction rs with
  | nil =>
    show bridgeZWGo false true [n] = [n]
    simp only [bridgeZWGo, hn, Bool.false_eq_true, if_false]
  | cons r rs ih =>
    have hr : isZW r = true := h r (List.mem_cons_self r rs)
    show bridgeZWGo false true (r :: (rs ++ [n])) = [n]
    simp only [bridgeZWGo, hr, if_true]
    exact ih fun c hm => h c (List.mem_cons_of_mem r hm)

theorem bridge_all_zw {run : List Char} (h : ∀ c ∈ run, isZW c = true) :
    bridgeZWGo false false run = run := by
  induction run with
  | nil => rfl
  | cons c rest ih =>
    have hc : isZW c = true := h c (List.mem_cons_self c rest)
    simp only [bridgeZWGo, hc, if_true, Bool.false_and, Bool.false_eq_true, if_false]
    exact congrArg (c :: ·) (ih fun x hm => h x (List.mem_cons_of_mem c hm))

/-- C5: the normalizer turns a maximal zero-width/bidi run into a single
ASCII space exactly when the run sits between two word characters, and
deletes such characters without inserting a space otherwise:
word-flanked runs collapse to `[p, ' ', n]`, unflanked runs vanish, and
`wordA​wordb` normalizes to `wordA wordb` while `​leading`
normalizes to `leading`. -/
theorem c5_zero_width_bridging :
    (∀ (p n : Char) (run : List Char), isWordChar p = true → isWordChar n = true →
        run ≠ [] → (∀ c ∈ run, isZW c = true) →
        removeZWL (bridgeZWL (p :: (run ++ [n]))) = [p, ' ', n]) ∧
    (∀ run : List Char, (∀ c ∈ run, isZW c = true) →
        removeZWL (bridgeZWL run) = []) ∧
    _normalize_unicode_text "wordA​wordb" = "wordA wordb" ∧
    _normalize_unicode_text "​leading" = "leading" := by
  refine ⟨?_, ?_, by decide, by decide⟩
  · intro p n run hp hn hne hall
    have hpz : isZW p = false := word_not_zw hp
    have hnz : isZW n = false := word_not_zw hn
    obtain ⟨r0, rs, rfl⟩ : ∃ r0 rs, run = r0 :: rs := by
      cases run with
      | nil => exact absurd rfl hne
      | cons r0 rs => exact ⟨r0, rs, rfl⟩
    have hr0 : isZW r0 = true := hall r0 (List.mem_cons_self r0 rs)
    have hrs : ∀ c ∈ rs, isZW c = true := fun c hm => hall c (List.mem_cons_of_mem r0 hm)
    have hwa : wordAfterZW (r0 :: (rs ++ [n])) = true := by
      unfold wordAfterZW
      rw [List.dropWhile_cons, if_pos hr0, dropWhile_append_cons hrs hnz]
      exact hn
    have hbr : bridgeZWGo false false (p :: ((r0 :: rs) ++ [n])) = p :: ' ' :: [n] := by
      rw [show (p :: ((r0 :: rs) ++ [n])) = p :: (r0 :: (rs ++ [n])) from rfl]
      simp only [bridgeZWGo, hpz, Bool.false_eq_true, if_false, hp, hr0, if_true,
        Bool.true_and, hwa, bridge_consume hrs hnz]
    rw [bridgeZWL, hbr]
    have hsz : isZW ' ' = false := by decide
    simp [removeZWL, List.filter_cons, hpz, hnz, hsz]
  · intro run hall
    rw [bridgeZWL, bridge_all_zw hall, removeZWL]
    simp only [List.filter_eq_nil_iff]
    intro c hm
    simp [hall c hm]

/-- C5 (witness): instantiation of the word-flanked part at
`a`, zero-width space, `b`, and of the unflanked part at a lone
zero-width space. -/
theorem c5_zero_width_bridging_witness :
    removeZWL (bridgeZWL ('a' :: (['​'] ++ ['b']))) = ['a', ' ', 'b'] ∧
    removeZWL (bridgeZWL ['​']) = [] :=
  ⟨c5_zero_width_bridging.1 'a' 'b' ['​'] (by decide) (by decide) (by decide) (by decide),
   c5_zero_width_bridging.2.1 ['​'] (by decide)⟩

/-! ## C4: dash spacing -/

theorem beforeDash_not_spacingDash {c : Char} (h : beforeDash c = true) :
    isSpacingDash c = false := by
  simp only [beforeDash, isWordChar, Bool.or_eq_true, decide_eq_true_eq] at h
  simp only [isSpacingDash, decide_eq_false_iff_not]
  omega

theorem afterDash_not_spacingDash {c : Char} (h : afterDash c = true) :
    isSpacingDash c = false := by
  simp only [afterDash, isWordChar, Bool.or_eq_true, decide_eq_true_eq] at h
  simp only [isSpacingDash, decide_eq_false_iff_not]
  omega

/-- C4 (amended): for a dash in the class the code actually uses — ASCII
hyphen, en dash, em dash, but not the figure dash — sitting directly
between a `[\w)\]]` character and a `[\w(\[]` character, the dash-spacing
pass inserts one space on each side, and `Revenue-growth` normalizes to
`Revenue - growth`. -/
theorem c4_amended_dash_spacing :
    (∀ p c n : Char, beforeDash p = true → isSpacingDash c = true → afterDash n = true →
        dashSpaceL [p, c, n] = [p, ' ', c, ' ', n]) ∧
    (isSpacingDash '-' = true ∧ isSpacingDash '–' = true ∧ isSpacingDash '—' = true ∧
      isSpacingDash '‒' = false) ∧
    _normalize_unicode_text "Revenue-growth" = "Revenue - growth" := by
  refine ⟨?_, by decide, by decide⟩
  intro p c n hp hc hn
  have hpd : isSpacingDash p = false := beforeDash_not_spacingDash hp
  have hnd : isSpacingDash n = false := afterDash_not_spacingDash hn
  unfold dashSpaceL
  simp only [dashGo, hpd, Bool.false_and, Bool.false_eq_true, if_false, hc, hp, hn,
    Bool.and_self, Bool.true_and, Bool.and_true, if_true, hnd]

/-- C4 (witness): instantiation of the dash-spacing window at `a-b`. -/
theorem c4_amended_dash_spacing_witness :
    dashSpaceL ['a', '-', 'b'] = ['a', ' ', '-', ' ', 'b'] :=
  c4_amended_dash_spacing.1 'a' '-' 'b' (by decide) (by decide) (by decide)

/-! ## C2: the normalizer on URL-safe text -/

/-- Characters over which every rule of the normalizer is inert: ASCII
letters, digits and the URL punctuation `/ : . _ % ? = & ~` (no spaces,
no dashes, no controls). -/
def urlSafeChars : List Char :=
  "ABCDEFGHIJKLMNOPQRSTUVWXYZabcdefghijklmnopqrstuvwxyz0123456789/:._%?=&~".data

theorem map_id_of_mem {f : Char → Char} {l : List Char}
    (h : ∀ c ∈ l, f c = c) : l.map f = l := by
  induction l with
  | nil => rfl
  | cons c rest ih =>
    rw [List.map_cons, h c (List.mem_cons_self c rest)]
    exact congrArg (c :: ·) (ih fun x hm => h x (List.mem_cons_of_mem c hm))

theorem bridgeZWGo_id {l : List Char} (h : ∀ c ∈ l, isZW c = false) :
    ∀ pw ir, bridgeZWGo pw ir l = l := by
  induction l with
  | nil => intro _ _; rfl
  | cons c rest ih =>
    intro pw ir
    have hc : isZW c = false := h c (List.mem_cons_self c rest)
    simp only [bridgeZWGo, hc, Bool.false_eq_true, if_false]
    exact congrArg (c :: ·) (ih (fun x hm => h x (List.mem_cons_of_mem c hm)) _ _)

theorem dashGo_id {l : List Char} (h : ∀ c ∈ l, isSpacingDash c = false) :
    ∀ prev, dashGo prev l = l := by
  induction l with
  | nil => intro _; rfl
  | cons c rest ih =>
    intro prev
    have hc : isSpacingDash c = false := h c (List.mem_cons_self c rest)
    simp only [dashGo, hc, Bool.false_and, Bool.false_eq_true, if_false]
    exact congrArg (c :: ·) (ih (fun x hm => h x (List.mem_cons_of_mem c hm)) _)

theorem collapseGo_id {l : List Char} (h : ∀ c ∈ l, isHSpace c = false) :
    collapseGo false l = l := by
  induction l with
  | nil => rfl
  | cons c rest ih =>
    have hc : isHSpace c = false := h c (List.mem_cons_self c rest)
    simp only [collapseGo, hc, Bool.false_eq_true, if_false]
    exact congrArg (c :: ·) (ih fun x hm => h x (List.mem_cons_of_mem c hm))

theorem punctGo_id {l : List Char} (h : ∀ c ∈ l, (c == ' ') = false) :
    punctGo false l = l := by
  induction l with
  | nil => rfl
  | cons c rest ih =>
    have hc : (c == ' ') = false := h c (List.mem_cons_self c rest)
    simp only [punctGo, hc, Bool.false_eq_true, if_false]
    exact congrArg (c :: ·) (ih fun x hm => h x (List.mem_cons_of_mem c hm))

/-- C2 (amended): the Text Normalizer has no URL-specific rules, and it
does alter URL substrings when one of its generic rules fires (see the
counterexample `http://a-b`); it leaves a URL unchanged exactly when none
fires — in particular `_normalize_unicode_text` is the identity on any
string made of ASCII letters, digits and `/:._%?=&~`, which covers
scheme-and-path URLs without dashes. -/
theorem c2_amended_normalizer_id_on_url_safe {l : List Char}
    (h : ∀ c ∈ l, c ∈ urlSafeChars) :
    normalizeTextL l = l := by
  have hn : nfkcL l = l :=
    map_id_of_mem fun c hm => by
      have : ∀ c ∈ urlSafeChars, nfkcChar c = c := by decide
      exact this c (h c hm)
  have hx : replaceExoticL l = l :=
    map_id_of_mem fun c hm => by
      have : ∀ c ∈ urlSafeChars, isExoticSpace c = false := by decide
      simp [this c (h c hm)]
  have hb : bridgeZWL l = l :=
    bridgeZWGo_id (fun c hm => by
      have : ∀ c ∈ urlSafeChars, isZW c = false := by decide
      exact this c (h c hm)) false false
  have hz : removeZWL l = l :=
    List.filter_eq_self.mpr fun c hm => by
      have : ∀ c ∈ urlSafeChars, isZW c = false := by decide
      simp [this c (h c hm)]
  have hs : removeSoftHyphenL l = l :=
    List.filter_eq_self.mpr fun c hm => by
      have : ∀ c ∈ urlSafeChars, (c != softHyphen) = true := by decide
      exact this c (h c hm)
  have hd : dashSpaceL l = l :=
    dashGo_id (fun c hm => by
      have : ∀ c ∈ urlSafeChars, isSpacingDash c = false := by decide
      exact this c (h c hm)) none
  have hc : collapseL l = l :=
    collapseGo_id fun c hm => by
      have : ∀ c ∈ urlSafeChars, isHSpace c = false := by decide
      exact this c (h c hm)
  have hp : punctFixL l = l :=
    punctGo_id fun c hm => by
      have : ∀ c ∈ urlSafeChars, (c == ' ') = false := by decide
      exact this c (h c hm)
  rw [normalizeTextL, hn, hx, hb, hz, hs, hd, hc, hp]

/-- C2 (witness): the normalizer leaves `http://example.com/foo`
unchanged. -/
theorem c2_amended_witness :
    normalizeTextL "http://example.com/foo".data = "http://example.com/foo".data :=
  c2_amended_normalizer_id_on_url_safe (by decide)

/-! ## C10: the normalizer preserves the newline structure -/

/-- The subsequence of newline characters of a string. -/
def newlines (l : List Char) : List Char := l.filter fun c => c == '\n'

theorem char_beq_false {c d : Char} (h : c.toNat ≠ d.toNat) : (c == d) = false := by
  rw [beq_eq_false_iff_ne]
  exact fun e => h (congrArg Char.toNat e)

theorem newlines_cons_of_ne {c : Char} (h : (c == '\n') = false) (l : List Char) :
    newlines (c :: l) = newlines l := by
  simp only [newlines, List.filter_cons, h, Bool.false_eq_true, if_false]

theorem newlines_cons (c : Char) (l : List Char) :
    newlines (c :: l) = (if (c == '\n') = true then [c] else []) ++ newlines l := by
  simp only [newlines, List.filter_cons]
  split <;> simp

theorem newlines_map {f : Char → Char} (hf : ∀ c, (f c == '\n') = (c == '\n')) :
    ∀ l : List Char, newlines (l.map f) = newlines l := by
  intro l
  induction l with
  | nil => rfl
  | cons c rest ih =>
    rw [List.map_cons, newlines_cons, newlines_cons c, hf c, ih]
    by_cases hc : (c == '\n') = true
    · have h1 : c = '\n' := by simpa using hc
      have h2 : f c = '\n' := by
        have := hf c
        rw [hc] at this
        simpa using this
      rw [if_pos hc, if_pos hc, h2, h1]
    · rw [if_neg hc, if_neg hc]

theorem toNat_newline : ('\n').toNat = 10 := rfl

theorem nfkcChar_newline (c : Char) : (nfkcChar c == '\n') = (c == '\n') := by
  unfold nfkcChar
  split_ifs with h1 h2 h3 h4
  · rw [char_beq_false (by decide), char_beq_false (show c.toNat ≠ 10 by omega)]
  · rw [char_beq_false (by decide), char_beq_false (show c.toNat ≠ 10 by omega)]
  · rw [char_beq_false (by decide), char_beq_false (show c.toNat ≠ 10 by omega)]
  · rw [char_beq_false (by decide), char_beq_false (show c.toNat ≠ 10 by omega)]
  · rfl

theorem exoticChar_newline (c : Char) :
    ((if isExoticSpace c then ' ' else c) == '\n') = (c == '\n') := by
  by_cases hx : isExoticSpace c = true
  · have hcn : c.toNat ≠ 10 := by
      simp only [isExoticSpace, decide_eq_true_eq] at hx
      omega
    rw [if_pos hx, char_beq_false (by decide), char_beq_false hcn]
  · simp only [hx, Bool.false_eq_true, if_false]

theorem zw_not_newline {c : Char} (h : isZW c = true) : (c == '\n') = false := by
  refine char_beq_false (show c.toNat ≠ 10 from ?_)
  simp only [isZW, decide_eq_true_eq] at h
  omega

theorem hspace_not_newline {c : Char} (h : isHSpace c = true) : (c == '\n') = false := by
  refine char_beq_false (show c.toNat ≠ 10 from ?_)
  simp only [isHSpace, decide_eq_true_eq] at h
  omega

theorem space_beq_newline : ((' ' : Char) == '\n') = false := by decide

theorem newlines_bridgeZWGo : ∀ (l : List Char) (pw ir : Bool),
    newlines (bridgeZWGo pw ir l) = newlines l := by
  intro l
  induction l with
  | nil => intro _ _; rfl
  | cons c rest ih =>
    intro pw ir
    by_cases hz : isZW c = true
    · have hcn : (c == '\n') = false := zw_not_newline hz
      cases ir with
      | true =>
        rw [show bridgeZWGo pw true (c :: rest) = bridgeZWGo false true rest from by
          simp [bridgeZWGo, hz]]
        rw [ih, newlines_cons_of_ne hcn]
      | false =>
        by_cases hw : (pw && wordAfterZW (c :: rest)) = true
        · rw [show bridgeZWGo pw false (c :: rest) = ' ' :: bridgeZWGo false true rest from by
            simp [bridgeZWGo, hz, hw]]
          rw [newlines_cons_of_ne space_beq_newline, ih, newlines_cons_of_ne hcn]
        · rw [show bridgeZWGo pw false (c :: rest) = c :: bridgeZWGo false false rest from by
            simp [bridgeZWGo, hz, hw]]
          rw [newlines_cons, ih, newlines_cons]
    · have hz' : isZW c = false := by simpa using hz
      rw [show bridgeZWGo pw ir (c :: rest) = c :: bridgeZWGo (isWordChar c) false rest from by
        simp [bridgeZWGo, hz']]
      rw [newlines_cons, ih, newlines_cons]

theorem newlines_dashGo : ∀ (l : List Char) (prev : Option Char),
    newlines (dashGo prev l) = newlines l := by
  intro l
  induction l with
  | nil => intro _; rfl
  | cons c rest ih =>
    intro prev
    simp only [dashGo]
    split
    · next hfire =>
      have hdash : isSpacingDash c = true := by
        rcases Bool.and_eq_true_iff.mp hfire with ⟨h1, -⟩
        exact (Bool.and_eq_true_iff.mp h1).1
      have hcn : (c == '\n') = false := by
        refine char_beq_false (show c.toNat ≠ 10 from ?_)
        simp only [isSpacingDash, decide_eq_true_eq] at hdash
        omega
      rw [newlines_cons_of_ne space_beq_newline, newlines_cons_of_ne hcn,
        newlines_cons_of_ne space_beq_newline, ih, newlines_cons_of_ne hcn]
    · rw [newlines_cons, ih, newlines_cons]

theorem newlines_collapseGo : ∀ (l : List Char) (b : Bool),
    newlines (collapseGo b l) = newlines l := by
  intro l
  induction l with
  | nil => intro b; cases b <;> rfl
  | cons c rest ih =>
    intro b
    cases b with
    | true =>
      by_cases hh : isHSpace c = true
      · rw [show collapseGo true (c :: rest) = collapseGo true rest from by
          simp [collapseGo, hh]]
        rw [ih, newlines_cons_of_ne (hspace_not_newline hh)]
      · have hh' : isHSpace c = false := by simpa using hh
        rw [show collapseGo true (c :: rest) = c :: collapseGo false rest from by
          simp [collapseGo, hh']]
        rw [newlines_cons, ih, newlines_cons]
    | false =>
      by_cases hh : isHSpace c = true
      · cases rest with
        | nil =>
          rw [show collapseGo false [c] = [c] from by simp [collapseGo, hh]]
        | cons d rest' =>
          by_cases hd : isHSpace d = true
          · rw [show collapseGo false (c :: d :: rest') = ' ' :: collapseGo true (d :: rest')
                from by simp [collapseGo, hh, hd]]
            rw [newlines_cons_of_ne space_beq_newline, ih,
              newlines_cons_of_ne (hspace_not_newline hh)]
          · have hd' : isHSpace d = false := by simpa using hd
            rw [show collapseGo false (c :: d :: rest') = c :: collapseGo false (d :: rest')
                from by simp [collapseGo, hh, hd']]
            rw [newlines_cons c (collapseGo false (d :: rest')), ih,
              newlines_cons c (d :: rest')]
      · have hh' : isHSpace c = false := by simpa using hh
        rw [show collapseGo false (c :: rest) = c :: collapseGo false rest from by
          simp [collapseGo, hh']]
        rw [newlines_cons, ih, newlines_cons]

theorem newlines_punctGo : ∀ (l : List Char) (b : Bool),
    newlines (punctGo b l) = newlines l := by
  intro l
  induction l with
  | nil => intro _; rfl
  | cons c rest ih =>
    intro b
    by_cases hc : (c == ' ') = true
    · have hcn : (c == '\n') = false := by
        have he : c = ' ' := by simpa using hc
        subst he
        decide
      cases b with
      | true =>
        rw [show punctGo true (c :: rest) = punctGo true rest from by simp [punctGo, hc]]
        rw [ih, newlines_cons_of_ne hcn]
      | false =>
        by_cases hpa : punctAfterSpaces (c :: rest) = true
        · rw [show punctGo false (c :: rest) = punctGo true rest from by
            simp [punctGo, hc, hpa]]
          rw [ih, newlines_cons_of_ne hcn]
        · rw [show punctGo false (c :: rest) = c :: punctGo false rest from by
            simp [punctGo, hc, hpa]]
          rw [newlines_cons, ih, newlines_cons]
    · have hc' : (c == ' ') = false := by simpa using hc
      rw [show punctGo b (c :: rest) = c :: punctGo false rest from by simp [punctGo, hc']]
      rw [newlines_cons, ih, newlines_cons]

theorem newlines_filter {q : Char → Bool} (hq : q '\n' = true) (l : List Char) :
    newlines (l.filter q) = newlines l := by
  induction l with
  | nil => rfl
  | cons c rest ih =>
    rw [List.filter_cons]
    by_cases hqc : q c = true
    · rw [if_pos hqc, newlines_cons, ih, newlines_cons]
    · rw [if_neg hqc]
      have hcn : (c == '\n') = false := by
        rw [beq_eq_false_iff_ne]
        intro e
        subst e
        exact hqc hq
      rw [ih, newlines_cons_of_ne hcn]

/-- C10: `_normalize_unicode_text` neither deletes, inserts nor replaces
newline characters: the subsequence of newlines of the output equals that
of the input (all collapsing and deletion acts on spaces, tabs and control
characters, never on `\n`), so the document's line structure is preserved
by normalization. -/
theorem c10_newline_preservation (s : String) :
    newlines (_normalize_unicode_text s).data = newlines s.data := by
  show newlines (punctGo false (collapseGo false (dashGo none ((((
      (s.data.map nfkcChar).map (fun c => if isExoticSpace c then ' ' else c)
      |> bridgeZWGo false false)).filter (fun c => !isZW c)).filter
      (fun c => c != softHyphen))))) = newlines s.data
  rw [newlines_punctGo, newlines_collapseGo, newlines_dashGo,
    newlines_filter (by decide), newlines_filter (by decide), newlines_bridgeZWGo,
    newlines_map exoticChar_newline, newlines_map nfkcChar_newline]
